import Mathlib

/-!
Verification of the Market Fire Watch application core: a shallow embedding of
the indicator math (RSI, ADX, SMA, EMA), the watchlist add/remove/save/load
operations, and the credential-store register/login operations, with theorems
settling the specification claims about them.

Numeric series computed with pandas are modelled by the type `PF` (pandas
float): an exact rational together with the three non-finite values NaN, +inf
and -inf, with the IEEE-754 rules for the arithmetic operations the code uses.
-/

/-- Pandas float value: NaN, +infinity, -infinity, or a finite number
(modelled exactly as a rational). -/
inductive PF where
  | nan : PF
  | inf : PF
  | ninf : PF
  | fin : ℚ → PF
deriving DecidableEq

/-- Is the value NaN? -/
def PF.isNan : PF → Bool
  | .nan => true
  | _ => false

/-- IEEE negation. -/
def PF.neg : PF → PF
  | .nan => .nan
  | .inf => .ninf
  | .ninf => .inf
  | .fin q => .fin (-q)

/-- IEEE addition. -/
def PF.add : PF → PF → PF
  | .nan, _ => .nan
  | _, .nan => .nan
  | .inf, .ninf => .nan
  | .ninf, .inf => .nan
  | .inf, _ => .inf
  | _, .inf => .inf
  | .ninf, _ => .ninf
  | _, .ninf => .ninf
  | .fin a, .fin b => .fin (a + b)

/-- IEEE subtraction. -/
def PF.sub (x y : PF) : PF := PF.add x (PF.neg y)

/-- IEEE multiplication. -/
def PF.mul : PF → PF → PF
  | .nan, _ => .nan
  | _, .nan => .nan
  | .inf, .inf => .inf
  | .inf, .ninf => .ninf
  | .ninf, .inf => .ninf
  | .ninf, .ninf => .inf
  | .inf, .fin q => if q = 0 then .nan else if 0 < q then .inf else .ninf
  | .fin q, .inf => if q = 0 then .nan else if 0 < q then .inf else .ninf
  | .ninf, .fin q => if q = 0 then .nan else if 0 < q then .ninf else .inf
  | .fin q, .ninf => if q = 0 then .nan else if 0 < q then .ninf else .inf
  | .fin a, .fin b => .fin (a * b)

/-- IEEE division (zeros are positive zeros, as produced by this program). -/
def PF.div : PF → PF → PF
  | .nan, _ => .nan
  | _, .nan => .nan
  | .inf, .inf => .nan
  | .inf, .ninf => .nan
  | .ninf, .inf => .nan
  | .ninf, .ninf => .nan
  | .fin _, .inf => .fin 0
  | .fin _, .ninf => .fin 0
  | .inf, .fin q => if 0 ≤ q then .inf else .ninf
  | .ninf, .fin q => if 0 ≤ q then .ninf else .inf
  | .fin a, .fin b =>
      if b = 0 then (if a = 0 then .nan else if 0 < a then .inf else .ninf)
      else .fin (a / b)

/-- IEEE absolute value. -/
def PF.abs : PF → PF
  | .nan => .nan
  | .inf => .inf
  | .ninf => .inf
  | .fin q => .fin |q|

/-- The comparison `x > 0` as evaluated by pandas (`NaN > 0` is false). -/
def PF.gt0 : PF → Bool
  | .inf => true
  | .fin q => decide (0 < q)
  | _ => false

/-- The comparison `x < 0` as evaluated by pandas (`NaN < 0` is false). -/
def PF.lt0 : PF → Bool
  | .ninf => true
  | .fin q => decide (q < 0)
  | _ => false

/-- Pandas `clip(lower=0)`: NaN stays NaN. -/
def PF.clipLower0 : PF → PF
  | .nan => .nan
  | .inf => .inf
  | .ninf => .fin 0
  | .fin q => .fin (max q 0)

/-- Pandas `clip(upper=0)`: NaN stays NaN. -/
def PF.clipUpper0 : PF → PF
  | .nan => .nan
  | .inf => .fin 0
  | .ninf => .ninf
  | .fin q => .fin (min q 0)

/-- Binary maximum over non-NaN pandas floats. -/
def PF.maxAux : PF → PF → PF
  | .inf, _ => .inf
  | _, .inf => .inf
  | .ninf, y => y
  | x, .ninf => x
  | .nan, _ => .nan
  | _, .nan => .nan
  | .fin a, .fin b => .fin (max a b)

/-- Pandas row-wise `max(axis=1)` of three values with the default
`skipna=True`: the maximum of the non-NaN entries, NaN if all are NaN. -/
def maxSkipNan (a b c : PF) : PF :=
  [a, b, c].foldl
    (fun acc x => if x.isNan then acc else if acc.isNan then x else PF.maxAux acc x)
    PF.nan

/-- The trailing observation window of size `w` ending at index `i`. -/
def windowAt (w : Nat) (xs : List PF) (i : Nat) : List PF :=
  (xs.take (i + 1)).drop (i + 1 - w)

/-- Pandas `rolling(window=w, min_periods=minp).mean()`: at each index, the
mean of the non-NaN values in the trailing window of size `w`, or NaN when
fewer than `minp` non-NaN observations are available. -/
def rollingMeanPF (w minp : Nat) (xs : List PF) : List PF :=
  (List.range xs.length).map fun i =>
    let obs := (windowAt w xs i).filter (fun x => !x.isNan)
    if obs.length < minp then PF.nan
    else PF.div (obs.foldl PF.add (PF.fin 0)) (PF.fin obs.length)

/-- Pandas `Series.diff(1)` on a finite series: NaN at index 0, consecutive
differences afterwards. -/
def diffPF : List ℚ → List PF
  | [] => []
  | x :: xs => PF.nan :: List.zipWith (fun a b => PF.fin (b - a)) (x :: xs) xs

/-- Pandas `Series.shift()` on a finite series: NaN at index 0, each value
moved one index later. -/
def shiftPF : List ℚ → List PF
  | [] => []
  | x :: xs => PF.nan :: ((x :: xs).dropLast.map PF.fin)

/-- The gains series of `calculate_rsi`: `delta.where(delta > 0, 0)`. -/
def rsiGain (s : List ℚ) : List PF :=
  (diffPF s).map fun d => if PF.gt0 d then d else PF.fin 0

/-- The losses series of `calculate_rsi`: `-delta.where(delta < 0, 0)`. -/
def rsiLoss (s : List ℚ) : List PF :=
  (diffPF s).map fun d => PF.neg (if PF.lt0 d then d else PF.fin 0)

/-- The rolling average gain of `calculate_rsi`:
`gain.rolling(window=period).mean()`. -/
def rsiAvgGain (s : List ℚ) (period : Nat) : List PF :=
  rollingMeanPF period period (rsiGain s)

/-- The rolling average loss of `calculate_rsi`:
`loss.rolling(window=period).mean()`. -/
def rsiAvgLoss (s : List ℚ) (period : Nat) : List PF :=
  rollingMeanPF period period (rsiLoss s)

/-- `StockDetailsPage.calculate_rsi`: `rs = avg_gain / avg_loss` and
`rsi = 100 - (100 / (1 + rs))`, elementwise. -/
def calculate_rsi (s : List ℚ) (period : Nat) : List PF :=
  List.zipWith
    (fun g l =>
      let rs := PF.div g l
      PF.sub (PF.fin 100) (PF.div (PF.fin 100) (PF.add (PF.fin 1) rs)))
    (rsiAvgGain s period) (rsiAvgLoss s period)

/-- One OHLC bar of the market-data table (volume is unused by the
indicator code). -/
structure Bar where
  high : ℚ
  low : ℚ
  close : ℚ
deriving DecidableEq

/-- True range of `calculate_adx`: the row-wise `skipna` maximum of
`high - low`, `|high - close.shift()|` and `|low - close.shift()|`. -/
def adxTR (bars : List Bar) : List PF :=
  let highs := bars.map Bar.high
  let lows := bars.map Bar.low
  let prevClose := shiftPF (bars.map Bar.close)
  let tr1 := bars.map fun b => PF.fin (b.high - b.low)
  let tr2 := List.zipWith (fun h pc => PF.abs (PF.sub (PF.fin h) pc)) highs prevClose
  let tr3 := List.zipWith (fun l pc => PF.abs (PF.sub (PF.fin l) pc)) lows prevClose
  List.zipWith (fun t12 t3 => maxSkipNan t12.1 t12.2 t3) (List.zipWith Prod.mk tr1 tr2) tr3

/-- Average true range of `calculate_adx`:
`tr.rolling(window=period, min_periods=1).mean()`. -/
def adxATR (bars : List Bar) (period : Nat) : List PF :=
  rollingMeanPF period 1 (adxTR bars)

/-- Plus directional movement of `calculate_adx`:
`high.diff().clip(lower=0)`. -/
def adxPlusDM (bars : List Bar) : List PF :=
  (diffPF (bars.map Bar.high)).map PF.clipLower0

/-- Minus directional movement of `calculate_adx`:
`low.diff().clip(upper=0).abs()`. -/
def adxMinusDM (bars : List Bar) : List PF :=
  ((diffPF (bars.map Bar.low)).map PF.clipUpper0).map PF.abs

/-- Smoothed plus DM of `calculate_adx`. -/
def adxSmoothedPlusDM (bars : List Bar) (period : Nat) : List PF :=
  rollingMeanPF period 1 (adxPlusDM bars)

/-- Smoothed minus DM of `calculate_adx`. -/
def adxSmoothedMinusDM (bars : List Bar) (period : Nat) : List PF :=
  rollingMeanPF period 1 (adxMinusDM bars)

/-- Raw `+DI` series of `calculate_adx`: `100 * smoothed_plus_dm / atr`,
before the final replace/fillna step. -/
def adxPlusDIraw (bars : List Bar) (period : Nat) : List PF :=
  List.zipWith (fun s a => PF.div (PF.mul (PF.fin 100) s) a)
    (adxSmoothedPlusDM bars period) (adxATR bars period)

/-- Raw `-DI` series of `calculate_adx`: `100 * smoothed_minus_dm / atr`,
before the final replace/fillna step. -/
def adxMinusDIraw (bars : List Bar) (period : Nat) : List PF :=
  List.zipWith (fun s a => PF.div (PF.mul (PF.fin 100) s) a)
    (adxSmoothedMinusDM bars period) (adxATR bars period)

/-- `DX` series of `calculate_adx`:
`100 * abs((plus_di - minus_di) / (plus_di + minus_di))`. -/
def adxDX (bars : List Bar) (period : Nat) : List PF :=
  List.zipWith
    (fun p m => PF.mul (PF.fin 100) (PF.abs (PF.div (PF.sub p m) (PF.add p m))))
    (adxPlusDIraw bars period) (adxMinusDIraw bars period)

/-- Raw `ADX` series: `dx.rolling(window=period, min_periods=1).mean()`. -/
def adxRaw (bars : List Bar) (period : Nat) : List PF :=
  rollingMeanPF period 1 (adxDX bars period)

/-- The final `replace([np.inf, -np.inf], np.nan).fillna(0)` step of
`calculate_adx`: every non-finite value becomes 0. -/
def fillZero : PF → PF
  | .fin q => .fin q
  | _ => .fin 0

/-- `StockDetailsPage.calculate_adx`: the `(adx, plus_di, minus_di)` triple
after the final replace/fillna step. -/
def calculate_adx (bars : List Bar) (period : Nat) : List PF × List PF × List PF :=
  ((adxRaw bars period).map fillZero,
   (adxPlusDIraw bars period).map fillZero,
   (adxMinusDIraw bars period).map fillZero)

/-- `data['Close'].rolling(window=w).mean()` as used by `plot_data` for the
SMA overlays. -/
def smaSeries (s : List ℚ) (w : Nat) : List PF :=
  rollingMeanPF w w (s.map PF.fin)

/-- Tail of `data['Close'].ewm(span=span, adjust=False).mean()`: the
recursion `e_i = alpha * x_i + (1 - alpha) * e_(i-1)`. -/
def emaFrom (alpha prev : ℚ) : List ℚ → List ℚ
  | [] => []
  | x :: xs =>
      let e := alpha * x + (1 - alpha) * prev
      e :: emaFrom alpha e xs

/-- `data['Close'].ewm(span=span, adjust=False).mean()` as used by
`plot_data` for the EMA overlays: seeded with the first close, smoothing
factor `alpha = 2 / (span + 1)`. -/
def emaSeries (s : List ℚ) (span : Nat) : List ℚ :=
  match s with
  | [] => []
  | x :: xs => x :: emaFrom (2 / ((span : ℚ) + 1)) x xs

/-- Python `str.split(',')` on the character list: split at every comma,
keeping empty pieces. -/
def splitOnComma (cs : List Char) : List (List Char) :=
  match cs with
  | [] => [[]]
  | c :: rest =>
      let r := splitOnComma rest
      if c = ',' then [] :: r
      else
        match r with
        | [] => [[c]]
        | g :: gs => (c :: g) :: gs

/-- The ASCII whitespace characters removed by Python `str.strip()`. -/
def isPySpace (c : Char) : Bool :=
  c == ' ' || c == '\t' || c == '\n' || c == '\r' || c == '\x0b' || c == '\x0c'

/-- Python `str.strip()`: drop leading and trailing whitespace. -/
def pyStrip (cs : List Char) : List Char :=
  ((cs.dropWhile isPySpace).reverse.dropWhile isPySpace).reverse

/-- The ticker parsing of `add_to_watchlist_from_entry`:
`text.upper().split(',')`, then each entry stripped, empty entries dropped. -/
def parseTickers (input : String) : List String :=
  (splitOnComma (input.toList.map Char.toUpper)).filterMap fun t =>
    let t2 := pyStrip t
    if t2.isEmpty then none else some (String.mk t2)

/-- The outcome of one press of the Add-to-Watchlist button: the in-memory
watchlist, the collected invalid tickers, the text put in the error label,
and whether `save_watchlist` was called. -/
structure AddResult where
  watchlist : List String
  invalid : List String
  errorMsg : String
  saved : Bool
deriving DecidableEq

/-- The error-label text of the too-many-tickers rejection. -/
def tooManyMsg : String := "You can add up to 5 tickers at a time."

/-- The error-label text listing the invalid tickers. -/
def invalidMsg (invalid : List String) : String :=
  "Invalid ticker(s): " ++ String.intercalate ", " invalid ++ ", try again."

/-- One iteration of the for-loop of `add_to_watchlist_from_entry` over the
state (watchlist, invalid tickers): the ticker is appended to the watchlist
when nonempty, not yet present, the watchlist holds fewer than 25 entries
and the injected validity predicate accepts it; with the same guards but a
rejecting predicate it goes to the invalid list; otherwise nothing changes. -/
def addStep (valid : String → Bool) (p : List String × List String) (t : String) :
    List String × List String :=
  if 0 < t.length ∧ t ∉ p.1 ∧ p.1.length < 25 then
    (if valid t = true then (p.1 ++ [t], p.2) else (p.1, p.2 ++ [t]))
  else p

/-- `HomePage.add_to_watchlist_from_entry`, with the external
`is_valid_ticker` probe injected as the predicate `valid`. -/
def add_to_watchlist_from_entry (w : List String) (valid : String → Bool)
    (input : String) : AddResult :=
  let tickers := parseTickers input
  if 5 < tickers.length then
    ⟨w, [], tooManyMsg, false⟩
  else
    let p := tickers.foldl (addStep valid) (w, [])
    ⟨p.1, p.2, if p.2.isEmpty then "" else invalidMsg p.2, true⟩

/-- `HomePage.remove_from_watchlist`: remove the first occurrence when
present (and then persist), otherwise do nothing; the boolean records
whether `save_watchlist` was called. -/
def remove_from_watchlist (w : List String) (t : String) : List String × Bool :=
  if t ∈ w then (w.erase t, true) else (w, false)

/-- A mutating watchlist operation of the home page. -/
inductive WatchOp where
  | add (valid : String → Bool) (input : String)
  | remove (t : String)

/-- Apply one watchlist operation to the in-memory watchlist. -/
def applyOp (w : List String) : WatchOp → List String
  | .add valid input => (add_to_watchlist_from_entry w valid input).watchlist
  | .remove t => (remove_from_watchlist w t).1

/-- Run a sequence of watchlist operations starting from the empty
watchlist of a fresh user. -/
def runOps (ops : List WatchOp) : List String :=
  ops.foldl applyOp []

/-- Look a username up in the credential store (the parsed content of
`users.json`, modelled as an insertion-ordered association list):
`users[username]["password"]` when present. -/
def lookupUser (users : List (String × String)) (u : String) : Option String :=
  (users.find? (fun p => p.1 == u)).map Prod.snd

/-- The outcome of `Auth.register`: the credential store, the returned
boolean, and whether `save_users` was called. -/
structure RegResult where
  users : List (String × String)
  ok : Bool
  saved : Bool
deriving DecidableEq

/-- `Auth.register`: fail when the username is already a key, otherwise
insert the plaintext password and persist the whole store. -/
def register (users : List (String × String)) (u pw : String) : RegResult :=
  if (lookupUser users u).isSome then ⟨users, false, false⟩
  else ⟨users ++ [(u, pw)], true, true⟩

/-- `Auth.login`: true exactly when the username is a key and the stored
password string equals the given one. -/
def login (users : List (String × String)) (u pw : String) : Bool :=
  match lookupUser users u with
  | some stored => stored == pw
  | none => false

/-- The error-label text produced by `LoginPage.login`: cleared on success,
one fixed message on every failure. -/
def loginMessage (users : List (String × String)) (u pw : String) : String :=
  if login users u pw then "" else "Invalid username or password."

/-- The lowercase hexadecimal digit for a value below 16. -/
def hexDigitChar (n : Nat) : Char :=
  if n < 10 then Char.ofNat ('0'.toNat + n) else Char.ofNat ('a'.toNat + n - 10)

/-- Four lowercase hexadecimal digits of a 16-bit value. -/
def hex4 (n : Nat) : List Char :=
  [hexDigitChar (n / 4096 % 16), hexDigitChar (n / 256 % 16),
   hexDigitChar (n / 16 % 16), hexDigitChar (n % 16)]

/-- Python `json.dump` encoding of one character (default `ensure_ascii`):
short escapes for quote, backslash and the common control characters, other
control and all non-ASCII characters as `\uXXXX` (a surrogate pair beyond
the basic multilingual plane), printable ASCII verbatim. -/
def encodeChar (c : Char) : List Char :=
  if c = '"' then ['\\', '"']
  else if c = '\\' then ['\\', '\\']
  else if c = '\x08' then ['\\', 'b']
  else if c = '\x0c' then ['\\', 'f']
  else if c = '\n' then ['\\', 'n']
  else if c = '\r' then ['\\', 'r']
  else if c = '\t' then ['\\', 't']
  else if c.toNat < 32 then '\\' :: 'u' :: hex4 c.toNat
  else if c.toNat ≤ 126 then [c]
  else if c.toNat ≤ 65535 then '\\' :: 'u' :: hex4 c.toNat
  else
    let v := c.toNat - 65536
    ('\\' :: 'u' :: hex4 (55296 + v / 1024)) ++ ('\\' :: 'u' :: hex4 (56320 + v % 1024))

/-- JSON encoding of the characters of a string (without the quotes). -/
def encChars : List Char → List Char
  | [] => []
  | c :: cs => encodeChar c ++ encChars cs

/-- JSON encoding of one string, quotes included. -/
def encodeStringChars (s : List Char) : List Char :=
  '"' :: encChars s ++ ['"']

/-- The items of a JSON array joined by the default `json.dump` separator
(comma and space). -/
def encodeItemsChars : List String → List Char
  | [] => []
  | [s] => encodeStringChars s.toList
  | s :: rest => encodeStringChars s.toList ++ ',' :: ' ' :: encodeItemsChars rest

/-- `json.dump` of a list of strings, as written by `save_watchlist`. -/
def watchlistJsonChars (l : List String) : List Char :=
  '[' :: encodeItemsChars l ++ [']']

/-- `json.dump` of a list of strings, as a string. -/
def watchlistJson (l : List String) : String :=
  String.mk (watchlistJsonChars l)

/-- The numeric value of a hexadecimal digit. -/
def hexVal (c : Char) : Option Nat :=
  if '0' ≤ c ∧ c ≤ '9' then some (c.toNat - '0'.toNat)
  else if 'a' ≤ c ∧ c ≤ 'f' then some (c.toNat - 'a'.toNat + 10)
  else if 'A' ≤ c ∧ c ≤ 'F' then some (c.toNat - 'A'.toNat + 10)
  else none

/-- JSON string-body decoder (the opening quote already consumed): returns
the decoded characters and the input remaining after the closing quote.
Escape sequences follow `json.load`, including surrogate-pair decoding.
Fuelled to keep the definition structurally recursive; fuel larger than the
number of decoded characters is always enough. -/
def decStrF : Nat → List Char → Option (List Char × List Char)
  | 0, _ => none
  | fuel + 1, cs =>
    match cs with
    | [] => none
    | c :: rest =>
      if c = '"' then some ([], rest)
      else if c = '\\' then
        match rest with
        | [] => none
        | e :: r =>
          if e = '"' then (decStrF fuel r).map fun p => ('"' :: p.1, p.2)
          else if e = '\\' then (decStrF fuel r).map fun p => ('\\' :: p.1, p.2)
          else if e = '/' then (decStrF fuel r).map fun p => ('/' :: p.1, p.2)
          else if e = 'b' then (decStrF fuel r).map fun p => ('\x08' :: p.1, p.2)
          else if e = 'f' then (decStrF fuel r).map fun p => ('\x0c' :: p.1, p.2)
          else if e = 'n' then (decStrF fuel r).map fun p => ('\n' :: p.1, p.2)
          else if e = 'r' then (decStrF fuel r).map fun p => ('\r' :: p.1, p.2)
          else if e = 't' then (decStrF fuel r).map fun p => ('\t' :: p.1, p.2)
          else if e = 'u' then
            match r with
            | h1 :: h2 :: h3 :: h4 :: r2 =>
              match hexVal h1, hexVal h2, hexVal h3, hexVal h4 with
              | some a, some b, some c2, some d =>
                let n := 4096 * a + 256 * b + 16 * c2 + d
                if 55296 ≤ n ∧ n ≤ 56319 then
                  match r2 with
                  | b1 :: b2 :: g1 :: g2 :: g3 :: g4 :: r3 =>
                    if b1 = '\\' ∧ b2 = 'u' then
                      match hexVal g1, hexVal g2, hexVal g3, hexVal g4 with
                      | some a2, some b3, some c3, some d2 =>
                        let m := 4096 * a2 + 256 * b3 + 16 * c3 + d2
                        if 56320 ≤ m ∧ m ≤ 57343 then
                          (decStrF fuel r3).map fun p =>
                            (Char.ofNat (65536 + 1024 * (n - 55296) + (m - 56320)) :: p.1,
                             p.2)
                        else none
                      | _, _, _, _ => none
                    else none
                  | _ => none
                else if 56320 ≤ n ∧ n ≤ 57343 then none
                else (decStrF fuel r2).map fun p => (Char.ofNat n :: p.1, p.2)
              | _, _, _, _ => none
            | _ => none
          else none
      else (decStrF fuel rest).map fun p => (c :: p.1, p.2)

/-- Drop leading JSON whitespace. -/
def skipSpaces (cs : List Char) : List Char :=
  cs.dropWhile fun c => c == ' ' || c == '\t' || c == '\n' || c == '\r'

/-- Decoder for the items of a nonempty JSON array of strings, expecting a
string, then either a closing bracket or a comma and more items. Returns
the decoded strings and the input remaining after the closing bracket. -/
def decItemsF : Nat → List Char → Option (List String × List Char)
  | 0, _ => none
  | fuel + 1, cs =>
    match cs with
    | [] => none
    | c :: rest =>
      if c = '"' then
        match decStrF (rest.length + 1) rest with
        | none => none
        | some (s, r) =>
          match skipSpaces r with
          | [] => none
          | c2 :: r2 =>
            if c2 = ']' then some ([String.mk s], r2)
            else if c2 = ',' then
              match decItemsF fuel (skipSpaces r2) with
              | some (l, r3) => some (String.mk s :: l, r3)
              | none => none
            else none
      else none

/-- `json.load` of a file expected to hold a JSON array of strings, as read
by `load_watchlist`; `none` models the exception raised on any other
content. -/
def decodeWatchlist (content : String) : Option (List String) :=
  match skipSpaces content.toList with
  | [] => none
  | c :: r =>
    if c = '[' then
      match skipSpaces r with
      | [] => none
      | c2 :: r2 =>
        if c2 = ']' then (if (skipSpaces r2).isEmpty then some [] else none)
        else
          match decItemsF ((c2 :: r2).length + 1) (c2 :: r2) with
          | some (l, rest) => if (skipSpaces rest).isEmpty then some l else none
          | none => none
    else none

/-- The per-user watchlist file name. -/
def watchlistFile (username : String) : String :=
  username ++ "_watchlist.json"

/-- `MainWindow.load_watchlist` over a file system mapping file names to
contents: an absent file yields the empty watchlist, a present file is
parsed as a JSON array of strings (`none` models the `json.load`
exception on other content). -/
def load_watchlist (fs : String → Option String) (username : String) :
    Option (List String) :=
  match fs (watchlistFile username) with
  | none => some []
  | some content => decodeWatchlist content

/-- `MainWindow.save_watchlist`: overwrite the user's watchlist file with
the JSON array of the full current watchlist. -/
def save_watchlist (fs : String → Option String) (username : String)
    (w : List String) : String → Option String :=
  fun name => if name = watchlistFile username then some (watchlistJson w) else fs name

/-! ## Watchlist operation theorems -/

theorem addStep_of_guard {valid : String → Bool} {wc inv : List String} {t : String}
    (hlen : 0 < t.length) (hmem : t ∉ wc) (hcap : wc.length < 25) :
    addStep valid (wc, inv) t =
      (if valid t = true then (wc ++ [t], inv) else (wc, inv ++ [t])) := by
  simp [addStep, hlen, hmem, hcap]

theorem addStep_of_skip {valid : String → Bool} {wc inv : List String} {t : String}
    (h : t ∈ wc ∨ 25 ≤ wc.length) :
    addStep valid (wc, inv) t = (wc, inv) := by
  rcases h with h | h
  · simp [addStep, h]
  · have hc : ¬ (wc.length < 25) := by omega
    simp [addStep, hc]

/-- Claim C1: parsing more than 5 tickers makes the add operation set the
too-many-tickers error and return before any mutation or save: the
watchlist is unchanged, no invalid list is built, and nothing is
persisted. -/
theorem add_rejects_over_five (w : List String) (valid : String → Bool)
    (input : String) (h : 5 < (parseTickers input).length) :
    add_to_watchlist_from_entry w valid input = ⟨w, [], tooManyMsg, false⟩ := by
  simp [add_to_watchlist_from_entry, h]

theorem add_rejects_over_five_witness :
    5 < (parseTickers "AAPL,MSFT,GOOG,AMZN,META,NFLX").length ∧
    add_to_watchlist_from_entry [] (fun _ => true) "AAPL,MSFT,GOOG,AMZN,META,NFLX" =
      ⟨[], [], tooManyMsg, false⟩ :=
  ⟨by decide, add_rejects_over_five [] (fun _ => true) _ (by decide)⟩

/-- Claim C2: with at most 5 parsed tickers the operation always saves; the
parse trims and upper-cases; each loop step adds a ticker exactly when it
is nonempty, absent, under capacity and accepted by the validity predicate,
collects it as invalid when it fails only the predicate, and silently skips
duplicates and over-capacity tickers; `add([], "aapl, msft")` with both
tickers valid yields the watchlist `["AAPL", "MSFT"]` and no invalid
tickers. -/
theorem add_semantics :
    parseTickers "aapl, msft" = ["AAPL", "MSFT"] ∧
    (∀ valid : String → Bool, valid "AAPL" = true → valid "MSFT" = true →
      add_to_watchlist_from_entry [] valid "aapl, msft" =
        ⟨["AAPL", "MSFT"], [], "", true⟩) ∧
    (∀ (valid : String → Bool) (wc inv : List String) (t : String),
      (0 < t.length → t ∉ wc → wc.length < 25 → valid t = true →
        addStep valid (wc, inv) t = (wc ++ [t], inv)) ∧
      (0 < t.length → t ∉ wc → wc.length < 25 → valid t = false →
        addStep valid (wc, inv) t = (wc, inv ++ [t])) ∧
      (t ∈ wc ∨ 25 ≤ wc.length → addStep valid (wc, inv) t = (wc, inv))) ∧
    (∀ (w : List String) (valid : String → Bool) (input : String),
      (parseTickers input).length ≤ 5 →
      add_to_watchlist_from_entry w valid input =
        ⟨((parseTickers input).foldl (addStep valid) (w, [])).1,
         ((parseTickers input).foldl (addStep valid) (w, [])).2,
         if ((parseTickers input).foldl (addStep valid) (w, [])).2.isEmpty then ""
         else invalidMsg ((parseTickers input).foldl (addStep valid) (w, [])).2,
         true⟩) := by
  refine ⟨by decide, ?_, ?_, ?_⟩
  · intro valid hA hM
    have hparse : parseTickers "aapl, msft" = ["AAPL", "MSFT"] := by decide
    have s1 : addStep valid ([], []) "AAPL" = (["AAPL"], []) := by
      rw [addStep_of_guard (by decide) (by decide) (by decide), if_pos hA]
      rfl
    have s2 : addStep valid (["AAPL"], []) "MSFT" = (["AAPL", "MSFT"], []) := by
      rw [addStep_of_guard (by decide) (by decide) (by decide), if_pos hM]
      rfl
    simp only [add_to_watchlist_from_entry, hparse]
    rw [if_neg (by decide)]
    simp only [List.foldl, s1, s2]
    rfl
  · intro valid wc inv t
    refine ⟨?_, ?_, ?_⟩
    · intro h1 h2 h3 h4
      rw [addStep_of_guard h1 h2 h3, if_pos h4]
    · intro h1 h2 h3 h4
      rw [addStep_of_guard h1 h2 h3, h4]
      simp
    · exact addStep_of_skip
  · intro w valid input h
    simp [add_to_watchlist_from_entry, Nat.not_lt.mpr h]

theorem add_semantics_witness :
    add_to_watchlist_from_entry [] (fun _ => true) "aapl, msft" =
      ⟨["AAPL", "MSFT"], [], "", true⟩ :=
  add_semantics.2.1 (fun _ => true) rfl rfl

/-- Claim C10: removing an absent ticker is a no-op: the watchlist is
returned unchanged and `save_watchlist` is not called. -/
theorem remove_absent_noop (w : List String) (t : String) (h : t ∉ w) :
    remove_from_watchlist w t = (w, false) := by
  simp [remove_from_watchlist, h]

theorem remove_absent_noop_witness :
    remove_from_watchlist ["AAPL"] "MSFT" = (["AAPL"], false) :=
  remove_absent_noop ["AAPL"] "MSFT" (by decide)

theorem addStep_fst_invariant (valid : String → Bool) (p : List String × List String)
    (t : String) (h : p.1.Nodup ∧ p.1.length ≤ 25) :
    (addStep valid p t).1.Nodup ∧ (addStep valid p t).1.length ≤ 25 := by
  unfold addStep
  split
  · next hc =>
    split
    · constructor
      · simp [List.nodup_append, h.1, hc.2.1]
      · simp only [List.length_append, List.length_singleton]
        omega
    · exact h
  · exact h

theorem foldl_addStep_fst_invariant (valid : String → Bool) (ts : List String)
    (p : List String × List String) (h : p.1.Nodup ∧ p.1.length ≤ 25) :
    (ts.foldl (addStep valid) p).1.Nodup ∧ (ts.foldl (addStep valid) p).1.length ≤ 25 := by
  induction ts generalizing p with
  | nil => exact h
  | cons t ts ih =>
    exact ih (addStep valid p t) (addStep_fst_invariant valid p t h)

theorem applyOp_invariant (w : List String) (op : WatchOp)
    (h : w.Nodup ∧ w.length ≤ 25) :
    (applyOp w op).Nodup ∧ (applyOp w op).length ≤ 25 := by
  cases op with
  | add valid input =>
    simp only [applyOp, add_to_watchlist_from_entry]
    split
    · exact h
    · exact foldl_addStep_fst_invariant valid _ (w, []) h
  | remove t =>
    simp only [applyOp, remove_from_watchlist]
    split
    · refine ⟨h.1.erase t, ?_⟩
      show (w.erase t).length ≤ 25
      have := List.length_erase t w
      split at this <;> omega
    · exact h

/-- Claim C7: every watchlist state reachable from the empty watchlist by
any sequence of add and remove operations has no duplicate tickers and at
most 25 entries. -/
theorem watchlist_invariant (ops : List WatchOp) :
    (runOps ops).Nodup ∧ (runOps ops).length ≤ 25 := by
  unfold runOps
  have main : ∀ (l : List WatchOp) (w : List String), w.Nodup ∧ w.length ≤ 25 →
      (l.foldl applyOp w).Nodup ∧ (l.foldl applyOp w).length ≤ 25 := by
    intro l
    induction l with
    | nil => intro w h; exact h
    | cons op l ih =>
      intro w h
      exact ih (applyOp w op) (applyOp_invariant w op h)
  exact main ops [] ⟨List.nodup_nil, by simp⟩

/-! ## Credential store theorems -/

theorem lookupUser_append_self (users : List (String × String)) (u pw : String)
    (h : lookupUser users u = none) :
    lookupUser (users ++ [(u, pw)]) u = some pw := by
  unfold lookupUser at h ⊢
  have hfind : users.find? (fun p => p.1 == u) = none := by
    cases hf : users.find? (fun p => p.1 == u) with
    | none => rfl
    | some v => rw [hf] at h; simp at h
  simp [List.find?_append, hfind]

/-- Claim C3: registration fails exactly when the username is already
present (exact string comparison); on failure the store is unchanged and
nothing is persisted; on success the plaintext password is appended and the
store is persisted, after which looking the username up yields the new
password. -/
theorem register_semantics (users : List (String × String)) (u pw : String) :
    ((register users u pw).ok = false ↔ lookupUser users u ≠ none) ∧
    (lookupUser users u ≠ none → register users u pw = ⟨users, false, false⟩) ∧
    (lookupUser users u = none →
      register users u pw = ⟨users ++ [(u, pw)], true, true⟩ ∧
      lookupUser (register users u pw).users u = some pw) := by
  refine ⟨?_, ?_, ?_⟩
  · unfold register
    cases h : lookupUser users u <;> simp [h]
  · intro h
    have : (lookupUser users u).isSome := by
      cases hl : lookupUser users u with
      | none => exact absurd hl h
      | some v => simp
    simp [register, this]
  · intro h
    have hns : ¬ (lookupUser users u).isSome := by simp [h]
    constructor
    · simp [register, hns]
    · simp only [register, hns, if_false]
      exact lookupUser_append_self users u pw h

theorem register_semantics_witness :
    register [("bob", "pw1")] "bob" "pw2" = ⟨[("bob", "pw1")], false, false⟩ ∧
    lookupUser [("bob", "pw1")] "bob" = some "pw1" :=
  ⟨(register_semantics [("bob", "pw1")] "bob" "pw2").2.1 (by decide), by decide⟩

/-- Claim C4: login succeeds exactly when the username is present with the
very password given; and any two failing runs, whatever their cause,
produce the same returned boolean and the same user-facing error message,
so unknown-user and wrong-password failures are indistinguishable. -/
theorem login_semantics (users : List (String × String)) (u pw : String) :
    (login users u pw = true ↔ lookupUser users u = some pw) ∧
    (∀ (users2 : List (String × String)) (u2 pw2 : String),
      login users u pw = false → login users2 u2 pw2 = false →
      login users u pw = login users2 u2 pw2 ∧
      loginMessage users u pw = loginMessage users2 u2 pw2) := by
  constructor
  · unfold login
    cases h : lookupUser users u with
    | none => simp
    | some stored => simp
  · intro users2 u2 pw2 h1 h2
    rw [h1, h2]
    simp [loginMessage, h1, h2]

theorem login_semantics_witness :
    login [("bob", "pw1")] "bob" "wrong" = login [] "nobody" "x" ∧
    loginMessage [("bob", "pw1")] "bob" "wrong" = loginMessage [] "nobody" "x" :=
  (login_semantics [("bob", "pw1")] "bob" "wrong").2 [] "nobody" "x"
    (by decide) (by decide)

/-! ## Indicator engine theorems -/

theorem rollingMeanPF_length (w minp : Nat) (xs : List PF) :
    (rollingMeanPF w minp xs).length = xs.length := by
  simp [rollingMeanPF]

theorem windowAt_one (xs : List PF) (i : Nat) (h : i < xs.length) :
    windowAt 1 xs i = [xs[i]] := by
  unfold windowAt
  have h1 : i + 1 - 1 = i := by omega
  have h2 : i + 1 - i = 1 := by omega
  rw [h1, List.drop_take, h2, List.drop_eq_getElem_cons h]
  rfl

theorem emaFrom_one (prev : ℚ) (xs : List ℚ) : emaFrom 1 prev xs = xs := by
  induction xs generalizing prev with
  | nil => rfl
  | cons x xs ih => simp [emaFrom, ih]

/-- Claim C8: window 1 is the identity: `rolling(window=1).mean()` returns
the close series itself at every point, and `ewm(span=1, adjust=False)`
(smoothing factor `alpha = 1`) also returns the series itself. -/
theorem sma_ema_window_one_id (s : List ℚ) :
    smaSeries s 1 = s.map PF.fin ∧ emaSeries s 1 = s := by
  constructor
  · unfold smaSeries rollingMeanPF
    apply List.ext_getElem
    · simp
    · intro i h1 h2
      simp only [List.getElem_map, List.getElem_range]
      rw [windowAt_one _ i (by simpa using h2)]
      have : i < s.length := by simpa using h2
      simp [List.getElem_map, PF.isNan, List.filter, PF.add, PF.div]
  · cases s with
    | nil => rfl
    | cons x xs =>
      have ha : (2 : ℚ) / ((1 : Nat) + 1 : ℚ) = 1 := by norm_num
      simp only [emaSeries, ha, emaFrom_one]

theorem diffPF_length (s : List ℚ) : (diffPF s).length = s.length := by
  cases s with
  | nil => rfl
  | cons x xs => simp [diffPF]

theorem diffPF_shape (s : List ℚ) :
    ∀ d ∈ diffPF s, d = PF.nan ∨ ∃ q, d = PF.fin q := by
  intro d hd
  cases s with
  | nil => simp [diffPF] at hd
  | cons x xs =>
    simp only [diffPF, List.mem_cons] at hd
    rcases hd with h | h
    · exact Or.inl h
    · right
      rw [List.mem_iff_getElem] at h
      obtain ⟨n, hn, hget⟩ := h
      rw [List.getElem_zipWith] at hget
      exact ⟨_, hget.symm⟩

theorem rsiGain_length (s : List ℚ) : (rsiGain s).length = s.length := by
  simp [rsiGain, diffPF_length]

theorem rsiLoss_length (s : List ℚ) : (rsiLoss s).length = s.length := by
  simp [rsiLoss, diffPF_length]

theorem rsiGain_shape (s : List ℚ) :
    ∀ x ∈ rsiGain s, ∃ q, x = PF.fin q ∧ 0 ≤ q := by
  intro x hx
  simp only [rsiGain, List.mem_map] at hx
  obtain ⟨d, hd, rfl⟩ := hx
  rcases diffPF_shape s d hd with rfl | ⟨q, rfl⟩
  · exact ⟨0, by simp [PF.gt0], le_refl 0⟩
  · by_cases hq : 0 < q
    · exact ⟨q, by simp [PF.gt0, hq], le_of_lt hq⟩
    · exact ⟨0, by simp [PF.gt0, hq], le_refl 0⟩

theorem rsiLoss_shape (s : List ℚ) :
    ∀ x ∈ rsiLoss s, ∃ q, x = PF.fin q ∧ 0 ≤ q := by
  intro x hx
  simp only [rsiLoss, List.mem_map] at hx
  obtain ⟨d, hd, rfl⟩ := hx
  rcases diffPF_shape s d hd with rfl | ⟨q, rfl⟩
  · exact ⟨0, by simp [PF.lt0, PF.neg], le_refl 0⟩
  · by_cases hq : q < 0
    · exact ⟨-q, by simp [PF.lt0, PF.neg, hq], by linarith⟩
    · exact ⟨0, by simp [PF.lt0, PF.neg, hq], le_refl 0⟩

theorem foldl_add_fin (l : List PF) :
    ∀ a : ℚ, (∀ x ∈ l, ∃ q, x = PF.fin q ∧ 0 ≤ q) → 0 ≤ a →
    ∃ q, l.foldl PF.add (PF.fin a) = PF.fin q ∧ 0 ≤ q := by
  induction l with
  | nil => intro a _ ha; exact ⟨a, rfl, ha⟩
  | cons x l ih =>
    intro a hx ha
    obtain ⟨q, rfl, hq⟩ := hx x (List.mem_cons_self x l)
    have he : PF.add (PF.fin a) (PF.fin q) = PF.fin (a + q) := rfl
    simp only [List.foldl_cons, he]
    exact ih (a + q) (fun y hy => hx y (List.mem_cons_of_mem _ hy)) (by linarith)

theorem mem_windowAt (w : Nat) (xs : List PF) (i : Nat) :
    ∀ x ∈ windowAt w xs i, x ∈ xs := by
  intro x hx
  exact List.mem_of_mem_take (List.mem_of_mem_drop hx)

theorem rollingMean_shape (w minp : Nat) (xs : List PF)
    (hx : ∀ x ∈ xs, ∃ q, x = PF.fin q ∧ 0 ≤ q) (i : Nat)
    (h : i < (rollingMeanPF w minp xs).length) :
    (rollingMeanPF w minp xs)[i] = PF.nan ∨
    ∃ q, (rollingMeanPF w minp xs)[i] = PF.fin q ∧ 0 ≤ q := by
  have hi : i < xs.length := by
    rw [rollingMeanPF_length] at h
    exact h
  have e : (rollingMeanPF w minp xs)[i] =
      (let obs := (windowAt w xs i).filter (fun x => !x.isNan)
       if obs.length < minp then PF.nan
       else PF.div (obs.foldl PF.add (PF.fin 0)) (PF.fin obs.length)) := by
    simp [rollingMeanPF]
  rw [e]
  simp only
  split
  · exact Or.inl rfl
  · have hobs : ∀ x ∈ (windowAt w xs i).filter (fun x => !x.isNan),
        ∃ q, x = PF.fin q ∧ 0 ≤ q := by
      intro x hxm
      exact hx x (mem_windowAt w xs i x (List.mem_filter.mp hxm).1)
    obtain ⟨q, hsum, hq⟩ := foldl_add_fin _ 0 hobs (le_refl 0)
    rw [hsum]
    by_cases h0 : ((windowAt w xs i).filter (fun x => !x.isNan)).length = 0
    · have hnil : ((windowAt w xs i).filter (fun x => !x.isNan)) = [] :=
        List.length_eq_zero.mp h0
      rw [hnil] at hsum
      simp only [List.foldl_nil, PF.fin.injEq] at hsum
      rw [h0, ← hsum]
      exact Or.inl (by simp [PF.div])
    · right
      have hcast : (((windowAt w xs i).filter (fun x => !x.isNan)).length : ℚ) ≠ 0 := by
        exact_mod_cast h0
      refine ⟨q / (((windowAt w xs i).filter (fun x => !x.isNan)).length : ℚ), ?_, ?_⟩
      · simp [PF.div, hcast]
      · exact div_nonneg hq (by positivity)

theorem rsiStep_bound (g l : PF)
    (hg : g = PF.nan ∨ ∃ a, g = PF.fin a ∧ 0 ≤ a)
    (hl : l = PF.nan ∨ ∃ b, l = PF.fin b ∧ 0 ≤ b) (q : ℚ)
    (h : PF.sub (PF.fin 100) (PF.div (PF.fin 100) (PF.add (PF.fin 1) (PF.div g l))) =
      PF.fin q) :
    0 ≤ q ∧ q ≤ 100 := by
  rcases hg with rfl | ⟨a, rfl, ha⟩
  · simp [PF.div, PF.add, PF.sub, PF.neg] at h
  rcases hl with rfl | ⟨b, rfl, hb⟩
  · simp [PF.div, PF.add, PF.sub, PF.neg] at h
  by_cases hb0 : b = 0
  · subst hb0
    by_cases ha0 : a = 0
    · subst ha0
      simp [PF.div, PF.add, PF.sub, PF.neg] at h
    · have hapos : 0 < a := lt_of_le_of_ne ha (Ne.symm ha0)
      have hdiv : PF.div (PF.fin a) (PF.fin 0) = PF.inf := by
        simp [PF.div, ha0, hapos]
      rw [hdiv] at h
      have : PF.sub (PF.fin 100) (PF.div (PF.fin 100) (PF.add (PF.fin 1) PF.inf)) =
          PF.fin 100 := by
        simp [PF.add, PF.div, PF.sub, PF.neg]
      rw [this] at h
      injection h with h'
      constructor <;> simp [← h']
  · have hne : PF.div (PF.fin a) (PF.fin b) = PF.fin (a / b) := by
      simp [PF.div, hb0]
    rw [hne] at h
    have hr : 0 ≤ a / b := div_nonneg ha hb
    have h1r : (0 : ℚ) < 1 + a / b := by linarith
    have h1rne : (1 : ℚ) + a / b ≠ 0 := ne_of_gt h1r
    have hadd : PF.add (PF.fin 1) (PF.fin (a / b)) = PF.fin (1 + a / b) := rfl
    rw [hadd] at h
    have hdiv : PF.div (PF.fin 100) (PF.fin (1 + a / b)) =
        PF.fin (100 / (1 + a / b)) := by
      simp [PF.div, h1rne]
    rw [hdiv] at h
    have hsub : PF.sub (PF.fin 100) (PF.fin (100 / (1 + a / b))) =
        PF.fin (100 - 100 / (1 + a / b)) := by
      simp [PF.sub, PF.add, PF.neg]
      ring
    rw [hsub] at h
    injection h with h'
    have hle : 100 / (1 + a / b) ≤ 100 := div_le_self (by norm_num) (by linarith)
    have hpos : 0 < 100 / (1 + a / b) := by positivity
    constructor <;> [linarith [hle, h'.symm]; linarith [hpos, h'.symm]]

theorem rsiStep_loss_zero (g : ℚ) (hg : g ≠ 0) :
    PF.sub (PF.fin 100)
      (PF.div (PF.fin 100) (PF.add (PF.fin 1) (PF.div (PF.fin g) (PF.fin 0)))) =
    PF.fin 100 := by
  have h1 : PF.div (PF.fin g) (PF.fin 0) = (if 0 < g then PF.inf else PF.ninf) := by
    simp [PF.div, hg]
  rw [h1]
  by_cases h : 0 < g
  · rw [if_pos h]
    simp [PF.sub, PF.add, PF.div, PF.neg]
  · rw [if_neg h]
    simp [PF.sub, PF.add, PF.div, PF.neg]

theorem rsiStep_both_zero :
    PF.sub (PF.fin 100)
      (PF.div (PF.fin 100) (PF.add (PF.fin 1) (PF.div (PF.fin 0) (PF.fin 0)))) =
    PF.nan := by
  simp [PF.sub, PF.add, PF.div, PF.neg]

/-- Claim C5 (amended): every defined (finite) RSI output lies in [0, 100];
when the rolling average loss at an index is 0 while the rolling average
gain there is a nonzero finite value, the output clamps to exactly 100; but
when the average loss and the average gain are both 0 (a flat window) the
output is NaN — undefined, not 100. -/
theorem rsi_bounds_and_clamp (s : List ℚ) (period : Nat) :
    (∀ (i : Nat) (q : ℚ),
      (calculate_rsi s period)[i]? = some (PF.fin q) → 0 ≤ q ∧ q ≤ 100) ∧
    (∀ (i : Nat) (g : ℚ), (rsiAvgLoss s period)[i]? = some (PF.fin 0) →
      (rsiAvgGain s period)[i]? = some (PF.fin g) → g ≠ 0 →
      (calculate_rsi s period)[i]? = some (PF.fin 100)) ∧
    (∀ i : Nat, (rsiAvgLoss s period)[i]? = some (PF.fin 0) →
      (rsiAvgGain s period)[i]? = some (PF.fin 0) →
      (calculate_rsi s period)[i]? = some PF.nan) := by
  refine ⟨?_, ?_, ?_⟩
  · intro i q hq
    simp only [calculate_rsi, List.getElem?_zipWith] at hq
    cases hag : (rsiAvgGain s period)[i]? with
    | none => rw [hag] at hq; simp at hq
    | some g =>
      cases hal : (rsiAvgLoss s period)[i]? with
      | none => rw [hag, hal] at hq; simp at hq
      | some l =>
        rw [hag, hal] at hq
        simp only [Option.some.injEq] at hq
        obtain ⟨hig, hgetg⟩ := List.getElem?_eq_some.mp hag
        obtain ⟨hil, hgetl⟩ := List.getElem?_eq_some.mp hal
        have hgshape : g = PF.nan ∨ ∃ a, g = PF.fin a ∧ 0 ≤ a := by
          rw [← hgetg]
          exact rollingMean_shape period period (rsiGain s) (rsiGain_shape s) i hig
        have hlshape : l = PF.nan ∨ ∃ b, l = PF.fin b ∧ 0 ≤ b := by
          rw [← hgetl]
          exact rollingMean_shape period period (rsiLoss s) (rsiLoss_shape s) i hil
        exact rsiStep_bound g l hgshape hlshape q hq
  · intro i g hli hgi hne
    obtain ⟨hil, hgetl⟩ := List.getElem?_eq_some.mp hli
    obtain ⟨hig, hgetg⟩ := List.getElem?_eq_some.mp hgi
    have hic : i < (calculate_rsi s period).length := by
      simp only [calculate_rsi, List.length_zipWith]
      exact lt_min hig hil
    rw [List.getElem?_eq_getElem hic]
    have he : (calculate_rsi s period)[i] =
        PF.sub (PF.fin 100)
          (PF.div (PF.fin 100)
            (PF.add (PF.fin 1)
              (PF.div (rsiAvgGain s period)[i] (rsiAvgLoss s period)[i]))) := by
      simp only [calculate_rsi]
      rw [List.getElem_zipWith]
    rw [he, hgetl, hgetg, rsiStep_loss_zero g hne]
  · intro i hli hgi
    obtain ⟨hil, hgetl⟩ := List.getElem?_eq_some.mp hli
    obtain ⟨hig, hgetg⟩ := List.getElem?_eq_some.mp hgi
    have hic : i < (calculate_rsi s period).length := by
      simp only [calculate_rsi, List.length_zipWith]
      exact lt_min hig hil
    rw [List.getElem?_eq_getElem hic]
    have he : (calculate_rsi s period)[i] =
        PF.sub (PF.fin 100)
          (PF.div (PF.fin 100)
            (PF.add (PF.fin 1)
              (PF.div (rsiAvgGain s period)[i] (rsiAvgLoss s period)[i]))) := by
      simp only [calculate_rsi]
      rw [List.getElem_zipWith]
    rw [he, hgetl, hgetg, rsiStep_both_zero]

theorem rsi_bounds_and_clamp_witness :
    ((0 : ℚ) ≤ 100 ∧ (100 : ℚ) ≤ 100) ∧
    (calculate_rsi [1, 2, 3] 2)[1]? = some (PF.fin 100) := by
  have hl : (rsiAvgLoss [1, 2, 3] 2)[1]? = some (PF.fin 0) := by
    norm_num [rsiAvgLoss, rsiLoss, rollingMeanPF, windowAt, diffPF, PF.lt0,
      PF.neg, PF.isNan, PF.add, PF.div, List.filter, List.foldl]
  have hg : (rsiAvgGain [1, 2, 3] 2)[1]? = some (PF.fin (1 / 2)) := by
    norm_num [rsiAvgGain, rsiGain, rollingMeanPF, windowAt, diffPF, PF.gt0,
      PF.isNan, PF.add, PF.div, List.filter, List.foldl]
  have h2 := (rsi_bounds_and_clamp [1, 2, 3] 2).2.1 1 (1 / 2) hl hg (by norm_num)
  exact ⟨(rsi_bounds_and_clamp [1, 2, 3] 2).1 1 100 h2, h2⟩

/-- Claim C5 counterexample: on the flat price series [5, 5, 5] with period
2, the rolling average loss at index 1 is 0, yet the RSI output there is
NaN (an undefined output), not the claimed 100: `0/0` makes `rs` NaN and
NaN propagates to the output. -/
theorem rsi_clamp_counterexample :
    (rsiAvgLoss [5, 5, 5] 2)[1]? = some (PF.fin 0) ∧
    (calculate_rsi [5, 5, 5] 2)[1]? = some PF.nan ∧
    (calculate_rsi [5, 5, 5] 2)[1]? ≠ some (PF.fin 100) := by
  have h1 : (rsiAvgLoss [5, 5, 5] 2)[1]? = some (PF.fin 0) := by
    norm_num [rsiAvgLoss, rsiLoss, rollingMeanPF, windowAt, diffPF, PF.lt0,
      PF.neg, PF.isNan, PF.add, PF.div, List.filter, List.foldl]
  have h2 : (calculate_rsi [5, 5, 5] 2)[1]? = some PF.nan := by
    norm_num [calculate_rsi, rsiAvgGain, rsiAvgLoss, rsiGain, rsiLoss,
      rollingMeanPF, windowAt, diffPF, PF.gt0, PF.lt0, PF.neg, PF.isNan,
      PF.add, PF.div, PF.sub, List.filter, List.foldl]
  refine ⟨h1, h2, ?_⟩
  rw [h2]
  simp

theorem shiftPF_length (s : List ℚ) : (shiftPF s).length = s.length := by
  cases s <;> simp [shiftPF]

theorem adxTR_length (bars : List Bar) : (adxTR bars).length = bars.length := by
  simp [adxTR, List.length_zipWith, shiftPF_length]

theorem adxPlusDM_length (bars : List Bar) :
    (adxPlusDM bars).length = bars.length := by
  simp [adxPlusDM, diffPF_length]

theorem adxMinusDM_length (bars : List Bar) :
    (adxMinusDM bars).length = bars.length := by
  simp [adxMinusDM, diffPF_length]

theorem fillZero_fin (x : PF) : ∃ q, fillZero x = PF.fin q := by
  cases x <;> exact ⟨_, rfl⟩

theorem fillZero_div_zero (x : PF) : fillZero (PF.div x (PF.fin 0)) = PF.fin 0 := by
  cases x with
  | nan => rfl
  | inf => simp [PF.div, fillZero]
  | ninf => simp [PF.div, fillZero]
  | fin a =>
    by_cases h1 : a = 0
    · simp [PF.div, h1, fillZero]
    · by_cases h2 : 0 < a
      · simp [PF.div, h1, h2, fillZero]
      · simp [PF.div, h1, h2, fillZero]

/-- Claim C6: every value of the three output series of `calculate_adx` is
a finite number — never NaN or an infinity — and wherever the rolling ATR
is 0, the degenerate `+DI` and `-DI` divisions resolve to 0 in the
output. -/
theorem adx_outputs_finite (bars : List Bar) (period : Nat) :
    (∀ x ∈ (calculate_adx bars period).1, ∃ q, x = PF.fin q) ∧
    (∀ x ∈ (calculate_adx bars period).2.1, ∃ q, x = PF.fin q) ∧
    (∀ x ∈ (calculate_adx bars period).2.2, ∃ q, x = PF.fin q) ∧
    (∀ i : Nat, (adxATR bars period)[i]? = some (PF.fin 0) →
      (calculate_adx bars period).2.1[i]? = some (PF.fin 0) ∧
      (calculate_adx bars period).2.2[i]? = some (PF.fin 0)) := by
  refine ⟨?_, ?_, ?_, ?_⟩
  · intro x hx
    simp only [calculate_adx, List.mem_map] at hx
    obtain ⟨y, -, rfl⟩ := hx
    exact fillZero_fin y
  · intro x hx
    simp only [calculate_adx, List.mem_map] at hx
    obtain ⟨y, -, rfl⟩ := hx
    exact fillZero_fin y
  · intro x hx
    simp only [calculate_adx, List.mem_map] at hx
    obtain ⟨y, -, rfl⟩ := hx
    exact fillZero_fin y
  · intro i h
    obtain ⟨hi, hget⟩ := List.getElem?_eq_some.mp h
    have hbars : i < bars.length := by
      have := hi
      rw [adxATR, rollingMeanPF_length, adxTR_length] at this
      exact this
    have hip : i < (adxSmoothedPlusDM bars period).length := by
      rw [adxSmoothedPlusDM, rollingMeanPF_length, adxPlusDM_length]
      exact hbars
    have him : i < (adxSmoothedMinusDM bars period).length := by
      rw [adxSmoothedMinusDM, rollingMeanPF_length, adxMinusDM_length]
      exact hbars
    have h1 : (adxPlusDIraw bars period)[i]? =
        some (PF.div (PF.mul (PF.fin 100) (adxSmoothedPlusDM bars period)[i])
          (PF.fin 0)) := by
      simp only [adxPlusDIraw, List.getElem?_zipWith,
        List.getElem?_eq_getElem hip, List.getElem?_eq_getElem hi, hget]
    have h2 : (adxMinusDIraw bars period)[i]? =
        some (PF.div (PF.mul (PF.fin 100) (adxSmoothedMinusDM bars period)[i])
          (PF.fin 0)) := by
      simp only [adxMinusDIraw, List.getElem?_zipWith,
        List.getElem?_eq_getElem him, List.getElem?_eq_getElem hi, hget]
    constructor
    · show ((adxPlusDIraw bars period).map fillZero)[i]? = some (PF.fin 0)
      rw [List.getElem?_map, h1, Option.map_some', fillZero_div_zero]
    · show ((adxMinusDIraw bars period).map fillZero)[i]? = some (PF.fin 0)
      rw [List.getElem?_map, h2, Option.map_some', fillZero_div_zero]

theorem adx_outputs_finite_witness :
    (calculate_adx [⟨1, 1, 1⟩] 14).2.1[0]? = some (PF.fin 0) ∧
    (calculate_adx [⟨1, 1, 1⟩] 14).2.2[0]? = some (PF.fin 0) := by
  have hatr : (adxATR [⟨1, 1, 1⟩] 14)[0]? = some (PF.fin 0) := by
    norm_num [adxATR, adxTR, rollingMeanPF, windowAt, shiftPF, maxSkipNan,
      PF.isNan, PF.maxAux, PF.abs, PF.sub, PF.neg, PF.add, PF.div,
      List.filter, List.foldl]
  exact (adx_outputs_finite [⟨1, 1, 1⟩] 14).2.2.2 0 hatr

/-! ## Persistence round-trip theorems -/

theorem hexVal_hexDigitChar (d : Nat) (h : d < 16) :
    hexVal (hexDigitChar d) = some d := by
  interval_cases d <;> rfl

theorem char_valid_range (c : Char) :
    c.toNat < 55296 ∨ (57343 < c.toNat ∧ c.toNat < 1114112) := c.valid

theorem char_not_surrogate (c : Char) : ¬ (55296 ≤ c.toNat ∧ c.toNat ≤ 57343) := by
  rcases char_valid_range c with h | h <;> omega

theorem char_toNat_lt (c : Char) : c.toNat < 1114112 := by
  rcases char_valid_range c with h | h <;> omega

theorem hex4_recombine (n : Nat) (h : n < 65536) :
    4096 * (n / 4096 % 16) + 256 * (n / 256 % 16) + 16 * (n / 16 % 16) + n % 16 = n := by
  omega

theorem encChars_length (s : List Char) : s.length ≤ (encChars s).length := by
  induction s with
  | nil => simp [encChars]
  | cons c s ih =>
    have h1 : 1 ≤ (encodeChar c).length := by
      unfold encodeChar
      repeat' split
      all_goals simp [hex4]
    simp only [encChars, List.length_append, List.length_cons]
    omega

theorem decStrF_u (fuel : Nat) (n : Nat) (hn : n < 65536)
    (hns : ¬ (55296 ≤ n ∧ n ≤ 57343)) (tail : List Char) :
    decStrF (fuel + 1) ('\\' :: 'u' :: (hex4 n ++ tail)) =
      (decStrF fuel tail).map fun p => (Char.ofNat n :: p.1, p.2) := by
  have e1 : hexVal (hexDigitChar (n / 4096 % 16)) = some (n / 4096 % 16) :=
    hexVal_hexDigitChar _ (by omega)
  have e2 : hexVal (hexDigitChar (n / 256 % 16)) = some (n / 256 % 16) :=
    hexVal_hexDigitChar _ (by omega)
  have e3 : hexVal (hexDigitChar (n / 16 % 16)) = some (n / 16 % 16) :=
    hexVal_hexDigitChar _ (by omega)
  have e4 : hexVal (hexDigitChar (n % 16)) = some (n % 16) :=
    hexVal_hexDigitChar _ (by omega)
  have hrec : 4096 * (n / 4096 % 16) + 256 * (n / 256 % 16) + 16 * (n / 16 % 16) +
      n % 16 = n := hex4_recombine n hn
  have hns1 : ¬ (55296 ≤ n ∧ n ≤ 56319) := by omega
  have hns2 : ¬ (56320 ≤ n ∧ n ≤ 57343) := by omega
  simp only [hex4, List.cons_append, List.nil_append]
  simp only [decStrF]
  simp [e1, e2, e3, e4, hrec, hns1, hns2]

theorem decStrF_u_pair (fuel : Nat) (n m : Nat)
    (hn1 : 55296 ≤ n) (hn2 : n ≤ 56319) (hm1 : 56320 ≤ m) (hm2 : m ≤ 57343)
    (tail : List Char) :
    decStrF (fuel + 1) ('\\' :: 'u' :: (hex4 n ++ ('\\' :: 'u' :: (hex4 m ++ tail)))) =
      (decStrF fuel tail).map fun p =>
        (Char.ofNat (65536 + 1024 * (n - 55296) + (m - 56320)) :: p.1, p.2) := by
  have e1 : hexVal (hexDigitChar (n / 4096 % 16)) = some (n / 4096 % 16) :=
    hexVal_hexDigitChar _ (by omega)
  have e2 : hexVal (hexDigitChar (n / 256 % 16)) = some (n / 256 % 16) :=
    hexVal_hexDigitChar _ (by omega)
  have e3 : hexVal (hexDigitChar (n / 16 % 16)) = some (n / 16 % 16) :=
    hexVal_hexDigitChar _ (by omega)
  have e4 : hexVal (hexDigitChar (n % 16)) = some (n % 16) :=
    hexVal_hexDigitChar _ (by omega)
  have f1 : hexVal (hexDigitChar (m / 4096 % 16)) = some (m / 4096 % 16) :=
    hexVal_hexDigitChar _ (by omega)
  have f2 : hexVal (hexDigitChar (m / 256 % 16)) = some (m / 256 % 16) :=
    hexVal_hexDigitChar _ (by omega)
  have f3 : hexVal (hexDigitChar (m / 16 % 16)) = some (m / 16 % 16) :=
    hexVal_hexDigitChar _ (by omega)
  have f4 : hexVal (hexDigitChar (m % 16)) = some (m % 16) :=
    hexVal_hexDigitChar _ (by omega)
  have hrecn : 4096 * (n / 4096 % 16) + 256 * (n / 256 % 16) + 16 * (n / 16 % 16) +
      n % 16 = n := hex4_recombine n (by omega)
  have hrecm : 4096 * (m / 4096 % 16) + 256 * (m / 256 % 16) + 16 * (m / 16 % 16) +
      m % 16 = m := hex4_recombine m (by omega)
  have hsn : 55296 ≤ n ∧ n ≤ 56319 := ⟨hn1, hn2⟩
  have hsm : 56320 ≤ m ∧ m ≤ 57343 := ⟨hm1, hm2⟩
  simp only [hex4, List.cons_append, List.nil_append]
  simp only [decStrF]
  simp [e1, e2, e3, e4, f1, f2, f3, f4, hrecn, hrecm, hsn, hsm]

theorem decStrF_enc (s : List Char) : ∀ (fuel : Nat) (rest : List Char),
    s.length < fuel →
    decStrF fuel (encChars s ++ '"' :: rest) = some (s, rest) := by
  induction s with
  | nil =>
    intro fuel rest hf
    match fuel, hf with
    | fuel + 1, _ => simp [decStrF, encChars]
  | cons c s ih =>
    intro fuel rest hf
    match fuel, hf with
    | fuel + 1, hf =>
      have hfs : s.length < fuel := by
        simp only [List.length_cons] at hf
        omega
      by_cases h1 : c = '"'
      · subst h1
        simp only [encChars]
        simp [encodeChar, decStrF, List.cons_append, ih fuel rest hfs]
      · by_cases h2 : c = '\\'
        · subst h2
          simp only [encChars]
          simp [encodeChar, decStrF, List.cons_append, ih fuel rest hfs]
        · by_cases h3 : c = '\x08'
          · subst h3
            simp only [encChars]
            simp [encodeChar, decStrF, List.cons_append, ih fuel rest hfs]
          · by_cases h4 : c = '\x0c'
            · subst h4
              simp only [encChars]
              simp [encodeChar, decStrF, List.cons_append, ih fuel rest hfs]
            · by_cases h5 : c = '\n'
              · subst h5
                simp only [encChars]
                simp [encodeChar, decStrF, List.cons_append, ih fuel rest hfs]
              · by_cases h6 : c = '\r'
                · subst h6
                  simp only [encChars]
                  simp [encodeChar, decStrF, List.cons_append, ih fuel rest hfs]
                · by_cases h7 : c = '\t'
                  · subst h7
                    simp only [encChars]
                    simp [encodeChar, decStrF, List.cons_append, ih fuel rest hfs]
                  · by_cases h8 : c.toNat < 32
                    · have he : encodeChar c = '\\' :: 'u' :: hex4 c.toNat := by
                        simp [encodeChar, h1, h2, h3, h4, h5, h6, h7, h8]
                      simp only [encChars, he, List.cons_append, List.append_assoc]
                      rw [decStrF_u fuel c.toNat (by omega) (by omega) _]
                      rw [ih fuel rest hfs]
                      simp [Char.ofNat_toNat]
                    · by_cases h9 : c.toNat ≤ 126
                      · have he : encodeChar c = [c] := by
                          simp [encodeChar, h1, h2, h3, h4, h5, h6, h7, h8, h9]
                        simp only [encChars, he, List.cons_append, List.nil_append]
                        simp [decStrF, h1, h2, ih fuel rest hfs]
                      · by_cases h10 : c.toNat ≤ 65535
                        · have he : encodeChar c = '\\' :: 'u' :: hex4 c.toNat := by
                            simp [encodeChar, h1, h2, h3, h4, h5, h6, h7, h8, h9, h10]
                          simp only [encChars, he, List.cons_append, List.append_assoc]
                          rw [decStrF_u fuel c.toNat (by omega)
                            (char_not_surrogate c) _]
                          rw [ih fuel rest hfs]
                          simp [Char.ofNat_toNat]
                        · have he : encodeChar c =
                              ('\\' :: 'u' :: hex4 (55296 + (c.toNat - 65536) / 1024)) ++
                              ('\\' :: 'u' :: hex4 (56320 + (c.toNat - 65536) % 1024)) := by
                            simp [encodeChar, h1, h2, h3, h4, h5, h6, h7, h8, h9, h10]
                          have hlt := char_toNat_lt c
                          simp only [encChars, he, List.cons_append, List.append_assoc]
                          rw [decStrF_u_pair fuel _ _ (by omega) (by omega) (by omega)
                            (by omega) _]
                          rw [ih fuel rest hfs]
                          have hcomb : 65536 + 1024 * ((c.toNat - 65536) / 1024) +
                              (c.toNat - 65536) % 1024 = c.toNat := by
                            omega
                          simp only [Option.map_some']
                          rw [show (55296 + (c.toNat - 65536) / 1024 - 55296) =
                            (c.toNat - 65536) / 1024 from by omega]
                          rw [show (56320 + (c.toNat - 65536) % 1024 - 56320) =
                            (c.toNat - 65536) % 1024 from by omega]
                          rw [hcomb, Char.ofNat_toNat]

theorem encodeItemsChars_head (l : List String) (hl : l ≠ []) :
    ∃ tl, encodeItemsChars l = '"' :: tl := by
  cases l with
  | nil => exact absurd rfl hl
  | cons s l' =>
    cases l' with
    | nil => exact ⟨_, rfl⟩
    | cons t l'' => exact ⟨_, rfl⟩

theorem length_le_encodeItems (l : List String) :
    l.length ≤ (encodeItemsChars l).length := by
  induction l with
  | nil => simp [encodeItemsChars]
  | cons s l ih =>
    cases l with
    | nil => simp [encodeItemsChars, encodeStringChars]
    | cons t l' =>
      simp only [encodeItemsChars, encodeStringChars, List.length_append,
        List.length_cons] at ih ⊢
      omega

theorem decItemsF_enc (l : List String) : ∀ (fuel : Nat) (rest : List Char),
    l ≠ [] → l.length ≤ fuel →
    decItemsF fuel (encodeItemsChars l ++ ']' :: rest) = some (l, rest) := by
  induction l with
  | nil => intro fuel rest h _; exact absurd rfl h
  | cons s l ih =>
    intro fuel rest hne hf
    match fuel, hf with
    | fuel + 1, hf =>
      cases l with
      | nil =>
        simp only [encodeItemsChars, encodeStringChars, List.cons_append,
          List.append_assoc, List.singleton_append, List.nil_append]
        simp only [decItemsF]
        have hlen : s.toList.length <
            (encChars s.toList ++ '"' :: ']' :: rest).length + 1 := by
          have := encChars_length s.toList
          simp only [List.length_append, List.length_cons]
          omega
        rw [decStrF_enc s.toList _ (']' :: rest) hlen]
        simp [skipSpaces]
      | cons t l' =>
        simp only [encodeItemsChars, encodeStringChars, List.cons_append,
          List.append_assoc, List.singleton_append, List.nil_append]
        simp only [decItemsF]
        have hlen : s.toList.length <
            (encChars s.toList ++ '"' :: ',' :: ' ' ::
              (encodeItemsChars (t :: l') ++ ']' :: rest)).length + 1 := by
          have := encChars_length s.toList
          simp only [List.length_append, List.length_cons]
          omega
        rw [decStrF_enc s.toList _
          (',' :: ' ' :: (encodeItemsChars (t :: l') ++ ']' :: rest)) hlen]
        obtain ⟨tl, htl⟩ := encodeItemsChars_head (t :: l') (by simp)
        have hskip : skipSpaces (' ' :: (encodeItemsChars (t :: l') ++ ']' :: rest)) =
            encodeItemsChars (t :: l') ++ ']' :: rest := by
          rw [htl]
          simp [skipSpaces]
        have hih := ih fuel rest (by simp) (by
          simp only [List.length_cons] at hf ⊢
          omega)
        have hskipd : List.dropWhile
            (fun c => c == ' ' || c == '\t' || c == '\n' || c == '\x0d')
            (encodeItemsChars (t :: l') ++ ']' :: rest) =
            encodeItemsChars (t :: l') ++ ']' :: rest := by
          rw [htl]
          simp
        simp [skipSpaces, hskipd, hih]

theorem decodeWatchlist_roundtrip (l : List String) :
    decodeWatchlist (watchlistJson l) = some l := by
  have htl : (watchlistJson l).toList = watchlistJsonChars l := rfl
  cases l with
  | nil => rfl
  | cons s l' =>
    obtain ⟨tl, htl2⟩ := encodeItemsChars_head (s :: l') (by simp)
    simp only [decodeWatchlist, htl, watchlistJsonChars]
    have hskip1 : skipSpaces ('[' :: (encodeItemsChars (s :: l') ++ [']'])) =
        '[' :: (encodeItemsChars (s :: l') ++ [']']) := by
      simp [skipSpaces]
    have hskip2 : skipSpaces (encodeItemsChars (s :: l') ++ [']']) =
        encodeItemsChars (s :: l') ++ [']'] := by
      rw [htl2]
      simp [skipSpaces]
    have hdec := decItemsF_enc (s :: l')
      ((encodeItemsChars (s :: l') ++ [']']).length + 1) [] (by simp) (by
        have h9 := length_le_encodeItems (s :: l')
        simp only [List.length_append, List.length_cons, List.length_nil] at h9 ⊢
        omega)
    rw [htl2] at hdec
    simp only [List.cons_append, List.length_cons, List.length_append,
      List.length_nil] at hdec
    rw [List.cons_append, hskip1]
    simp [hskip2, htl2, List.cons_append, hdec, skipSpaces]

/-- Claim C9: saving a watchlist and then loading it yields exactly the
same list of tickers, for every watchlist (whatever characters the stored
strings contain, through the JSON string escaping); and loading when the
user's watchlist file is absent yields the empty watchlist rather than an
error. -/
theorem save_load_roundtrip (fs : String → Option String) (u : String)
    (w : List String) :
    load_watchlist (save_watchlist fs u w) u = some w ∧
    (fs (watchlistFile u) = none → load_watchlist fs u = some []) := by
  constructor
  · unfold load_watchlist save_watchlist
    rw [if_pos rfl]
    exact decodeWatchlist_roundtrip w
  · intro h
    unfold load_watchlist
    rw [h]

theorem save_load_roundtrip_witness :
    load_watchlist (save_watchlist (fun _ => none) "bob" ["AAPL"]) "bob" =
      some ["AAPL"] ∧
    load_watchlist (fun _ => none) "bob" = some [] :=
  ⟨(save_load_roundtrip (fun _ => none) "bob" ["AAPL"]).1,
   (save_load_roundtrip (fun _ => none) "bob" ["AAPL"]).2 rfl⟩
